import Mathlib

/-!
Shallow embedding of the `flex-version` crate (`src/lib.rs`): a parser for
loosely-structured version strings and a total order on the parsed versions.

Strings are modelled as `List Char` (Rust iterates over `char`s; every
predicate used by the crate is a per-`char` ASCII test, and Rust's byte-wise
`str` ordering coincides with code-point lexicographic ordering under UTF-8).
Rust `u64` values are modelled as `Nat` together with the explicit bound
`u64Max` where overflow matters (in `parse_integer`).
-/

/-- Maximum value of a Rust `u64`: `2^64 - 1`. -/
def u64Max : Nat := 18446744073709551615

/-- The `Component` type from `src/lib.rs`: an indivisible part of a version, either an
alphabetic identifier or a number.  The constructor order mirrors the Rust
declaration order (`Identifier` first, then `Number`), which is what the
derived `Ord` instance on the Rust side compares by. -/
inductive Component where
  | Identifier (s : List Char)
  | Number (n : Nat)
deriving DecidableEq, Repr

/-- Comparison of two naturals, as Rust's `u64::cmp`. -/
def natCmp (a b : Nat) : Ordering :=
  if a < b then .lt else if a = b then .eq else .gt

/-- Lexicographic comparison of strings by code point, as Rust's `str::cmp`
(byte-wise comparison of UTF-8 agrees with code-point order). -/
def cmpChars : List Char → List Char → Ordering
  | [], [] => .eq
  | [], _ :: _ => .lt
  | _ :: _, [] => .gt
  | a :: as, b :: bs =>
    match natCmp a.toNat b.toNat with
    | .eq => cmpChars as bs
    | o => o

/-- The derived `Ord` on Rust's `Component`: variants compare in declaration
order (`Identifier` before `Number`), payloads compare structurally. -/
def componentCmp : Component → Component → Ordering
  | .Identifier a, .Identifier b => cmpChars a b
  | .Identifier _, .Number _ => .lt
  | .Number _, .Identifier _ => .gt
  | .Number a, .Number b => natCmp a b

/-- The `Version` type from `src/lib.rs`: an owned sequence of components. -/
structure Version where
  components : List Component
deriving DecidableEq, Repr

/-- The dual-cursor equality walk of `impl PartialEq for Version`
(`src/lib.rs` lines 160-180), on the two component lists. -/
def eqComponents : List Component → List Component → Bool
  | [], [] => true
  | [], .Number 0 :: rest => eqComponents [] rest
  | .Number 0 :: rest, [] => eqComponents rest []
  | [], _ :: _ => false
  | _ :: _, [] => false
  | c1 :: r1, c2 :: r2 => if c1 = c2 then eqComponents r1 r2 else false
termination_by a b => a.length + b.length

/-- The dual-cursor comparison walk of `impl Ord for Version`
(`src/lib.rs` lines 190-213), on the two component lists. -/
def cmpComponents : List Component → List Component → Ordering
  | [], [] => .eq
  | [], .Number 0 :: rest => cmpComponents [] rest
  | .Number 0 :: rest, [] => cmpComponents rest []
  | [], .Number _ :: _ => .lt
  | .Number _ :: _, [] => .gt
  | [], .Identifier _ :: _ => .gt
  | .Identifier _ :: _, [] => .lt
  | c1 :: r1, c2 :: r2 =>
    match componentCmp c1 c2 with
    | .eq => cmpComponents r1 r2
    | o => o
termination_by a b => a.length + b.length

/-- Rust `Version::eq`. -/
def versionEq (a b : Version) : Bool :=
  eqComponents a.components b.components

/-- Rust `Version::cmp`. -/
def versionCmp (a b : Version) : Ordering :=
  cmpComponents a.components b.components

/-- Rust `impl Default for Version`: the version `0.0.0`. -/
def defaultVersion : Version :=
  ⟨[.Number 0, .Number 0, .Number 0]⟩

/-! ## The component scanner (`ComponentParser` in `src/lib.rs`) -/

/-- Rust `COMPONENT_SEPARATORS = ".-_+:"`: the hard delimiter characters. -/
def isSep (c : Char) : Bool :=
  c = '.' || c = '-' || c = '_' || c = '+' || c = ':'

/-- Modelled from the spec: `util::SplitPrefix::split_prefix` (file
`src/util.rs` is not present in the sources).  Per the spec it consumes a
maximal run of characters satisfying the predicate from the front of the
input, succeeding only when that run is non-empty, and returns the run
together with the remaining tail. -/
def splitLeading (p : Char → Bool) (l : List Char) : Option (List Char × List Char) :=
  if l.takeWhile p = [] then none
  else some (l.takeWhile p, l.dropWhile p)

/-- Value of a run of ASCII digit characters read as a decimal numeral
(Rust `str::parse::<u64>` on an all-digit string, before the range check). -/
def digitsToNat (l : List Char) : Nat :=
  l.foldl (fun acc c => acc * 10 + (c.toNat - 48)) 0

/-- Rust `ComponentParser::parse_number` composed with `parse_integer::<u64>`:
consume a maximal run of ASCII digits and read it as a `u64`; a run whose
value exceeds `u64Max` makes `u64::from_str` fail, so nothing is consumed. -/
def parseNumber (input : List Char) : Option (Component × List Char) :=
  match splitLeading Char.isDigit input with
  | some (digits, tail) =>
    if digitsToNat digits ≤ u64Max then some (.Number (digitsToNat digits), tail)
    else none
  | none => none

/-- Rust `ComponentParser::parse_identifier`: consume a maximal run of ASCII
alphabetic characters. -/
def parseIdentifier (input : List Char) : Option (Component × List Char) :=
  match splitLeading Char.isAlpha input with
  | some (id, tail) => some (.Identifier id, tail)
  | none => none

/-- One scanner step outcome: end of the sequence, a component together with
the remaining input, or a parse failure carrying the unconsumed input. -/
inductive Step where
  | done
  | comp (c : Component) (rest : List Char)
  | fail (e : List Char)
deriving DecidableEq, Repr

/-- The tail of `ComponentParser::next` after separator handling: try a
number, then an identifier, else fail with the current input. -/
def parseComponentAt (input : List Char) : Step :=
  match parseNumber input with
  | some (c, rest) => .comp c rest
  | none =>
    match parseIdentifier input with
    | some (c, rest) => .comp c rest
    | none => .fail input

/-- Rust `str::strip_prefix` with the separator predicate: strips exactly one
separator character. -/
def stripSep : List Char → Option (List Char)
  | c :: tail => if isSep c then some tail else none
  | [] => none

/-- Rust `str::strip_prefix(" (")`: strips the literal two-character sequence. -/
def stripParen : List Char → Option (List Char)
  | ' ' :: '(' :: rest => some rest
  | _ => none

/-- Rust `ComponentParser::next` (`src/lib.rs` lines 71-106) as a function of the
scanner state (`first` flag and remaining input).  On the first call no
separator or parenthesized-suffix handling happens; afterwards one separator
character is stripped if present, and otherwise a `" ("` prefix triggers the
trailing-annotation rule: if the only `)` in the rest is its final character
the whole suffix is discarded and the sequence ends, else the step fails with
the input still starting at `" ("`. -/
def pNext (first : Bool) (input : List Char) : Step :=
  if input.isEmpty then .done
  else if first then
    parseComponentAt input
  else
    match stripSep input with
    | some tail => parseComponentAt tail
    | none =>
      match stripParen input with
      | some rest =>
        if rest.dropWhile (fun ch => ch != ')') = [')'] then .done
        else .fail input
      | none => parseComponentAt input

/-- When `splitLeading` succeeds, the consumed run and the tail partition the
input and the run is non-empty. -/
theorem splitLeading_eq_some {p : Char → Bool} {l a b : List Char}
    (h : splitLeading p l = some (a, b)) :
    a = l.takeWhile p ∧ b = l.dropWhile p ∧ l.takeWhile p ≠ [] := by
  unfold splitLeading at h
  split at h
  · exact absurd h (by simp)
  · rename_i hne
    injection h with h
    injection h with h1 h2
    exact ⟨h1.symm, h2.symm, hne⟩

/-- When `splitLeading` succeeds, the tail is strictly shorter than the
input. -/
theorem splitLeading_some_length {p : Char → Bool} {l a b : List Char}
    (h : splitLeading p l = some (a, b)) : b.length < l.length := by
  obtain ⟨-, hb, hne⟩ := splitLeading_eq_some h
  subst hb
  have hsum : (l.takeWhile p).length + (l.dropWhile p).length = l.length := by
    conv_rhs => rw [← List.takeWhile_append_dropWhile p l]
    exact (List.length_append _ _).symm
  have hpos : 0 < (l.takeWhile p).length := List.length_pos.mpr hne
  omega

/-- When `splitLeading` succeeds, the tail is a suffix of the input. -/
theorem splitLeading_some_suffix {p : Char → Bool} {l a b : List Char}
    (h : splitLeading p l = some (a, b)) : b.IsSuffix l := by
  obtain ⟨-, hb, -⟩ := splitLeading_eq_some h
  subst hb
  exact ⟨l.takeWhile p, List.takeWhile_append_dropWhile p l⟩

/-- A successful `parseNumber` consumes at least one character and leaves a
suffix. -/
theorem parseNumber_some_shape {input rest : List Char} {c : Component}
    (h : parseNumber input = some (c, rest)) :
    rest.length < input.length ∧ rest.IsSuffix input := by
  unfold parseNumber at h
  split at h
  · rename_i digits tail hs
    split at h
    · injection h with h
      injection h with h1 h2
      subst h2
      exact ⟨splitLeading_some_length hs, splitLeading_some_suffix hs⟩
    · exact absurd h (by simp)
  · exact absurd h (by simp)

/-- A successful `parseIdentifier` consumes at least one character and leaves
a suffix. -/
theorem parseIdentifier_some_shape {input rest : List Char} {c : Component}
    (h : parseIdentifier input = some (c, rest)) :
    rest.length < input.length ∧ rest.IsSuffix input := by
  unfold parseIdentifier at h
  split at h
  · rename_i id tail hs
    injection h with h
    injection h with h1 h2
    subst h2
    exact ⟨splitLeading_some_length hs, splitLeading_some_suffix hs⟩
  · exact absurd h (by simp)

/-- A component step of `parseComponentAt` consumes at least one character
and leaves a suffix. -/
theorem parseComponentAt_comp_shape {input rest : List Char} {c : Component}
    (h : parseComponentAt input = .comp c rest) :
    rest.length < input.length ∧ rest.IsSuffix input := by
  unfold parseComponentAt at h
  split at h
  · rename_i c' rest' hn
    injection h with h1 h2
    subst h2
    exact parseNumber_some_shape hn
  · split at h
    · rename_i c' rest' hi
      injection h with h1 h2
      subst h2
      exact parseIdentifier_some_shape hi
    · exact absurd h (by simp)

/-- A failing `parseComponentAt` reports exactly its input. -/
theorem parseComponentAt_fail_eq {input e : List Char}
    (h : parseComponentAt input = .fail e) : e = input := by
  unfold parseComponentAt at h
  split at h
  · exact absurd h (by simp)
  · split at h
    · exact absurd h (by simp)
    · injection h with h
      exact h.symm

/-- Stripping one separator character leaves a strictly shorter suffix. -/
theorem stripSep_some_shape {input tail : List Char}
    (h : stripSep input = some tail) :
    tail.length < input.length ∧ tail.IsSuffix input := by
  unfold stripSep at h
  split at h
  · rename_i x xs
    split at h
    · injection h with h
      subst h
      exact ⟨by simp, ⟨[x], rfl⟩⟩
    · exact absurd h (by simp)
  · exact absurd h (by simp)

/-- A component step of the scanner, from any state, consumes at least one
character of the remaining input and leaves a suffix of it. -/
theorem pNext_comp_shape {first : Bool} {input rest : List Char} {c : Component}
    (h : pNext first input = .comp c rest) :
    rest.length < input.length ∧ rest.IsSuffix input := by
  unfold pNext at h
  split at h
  · exact absurd h (by simp)
  · split at h
    · exact parseComponentAt_comp_shape h
    · split at h
      · rename_i tail hs
        obtain ⟨hl, hsuf⟩ := parseComponentAt_comp_shape h
        obtain ⟨hl', hsuf'⟩ := stripSep_some_shape hs
        exact ⟨Nat.lt_trans hl hl', hsuf.trans hsuf'⟩
      · split at h
        · split at h
          · exact absurd h (by simp)
          · exact absurd h (by simp)
        · exact parseComponentAt_comp_shape h

/-- A failing scanner step reports a suffix of the remaining input. -/
theorem pNext_fail_suffix {first : Bool} {input e : List Char}
    (h : pNext first input = .fail e) : e.IsSuffix input := by
  unfold pNext at h
  split at h
  · exact absurd h (by simp)
  · split at h
    · rw [parseComponentAt_fail_eq h]
    · split at h
      · rename_i tail hs
        rw [parseComponentAt_fail_eq h]
        exact (stripSep_some_shape hs).2
      · split at h
        · split at h
          · exact absurd h (by simp)
          · injection h with h
            rw [← h]
        · rw [parseComponentAt_fail_eq h]

/-- Rust `<Version as FromStr>::from_str`'s driver: drain the scanner, collecting
components, short-circuiting on the first error (Rust
`ComponentParser::from(input).collect::<Result<_, _>>()`). -/
def collect (first : Bool) (input : List Char) : Except (List Char) (List Component) :=
  match h : pNext first input with
  | .done => .ok []
  | .fail e => .error e
  | .comp c rest => (collect false rest).map (fun cs => c :: cs)
termination_by input.length
decreasing_by exact (pNext_comp_shape h).1

/-- Rust `ParseVersionError`: a parse failure carrying the unconsumed remainder. -/
structure ParseVersionError where
  remaining : List Char
deriving DecidableEq, Repr

/-- Rust `<Version as FromStr>::from_str`. -/
def version_from_str (s : String) : Except ParseVersionError Version :=
  match collect true s.data with
  | .ok cs => .ok ⟨cs⟩
  | .error e => .error ⟨e⟩

/-! ## Text rendering (`impl Display` in `src/lib.rs`) -/

/-- Decimal rendering of a natural number, most significant digit first
(Rust's `Display` for `u64`). -/
def natDigits (n : Nat) : List Char :=
  if n < 10 then [Char.ofNat (48 + n)]
  else natDigits (n / 10) ++ [Char.ofNat (48 + n % 10)]
termination_by n
decreasing_by exact Nat.div_lt_self (by omega) (by omega)

/-- Rust `Display` for `Component`: a number prints as decimal digits, an
identifier as its raw text. -/
def renderComponent : Component → List Char
  | .Number n => natDigits n
  | .Identifier s => s

/-- The dot-prefixed loop of the rendering of `Display` for `Version`: every component after the
first is preceded by a dot. -/
def sepRender : List Component → List Char
  | [] => []
  | c :: cs => '.' :: (renderComponent c ++ sepRender cs)

/-- Rust `Display` for `Version` (`src/lib.rs` lines 232-246): first component
bare, the rest each preceded by `.`. -/
def renderVersion (v : Version) : List Char :=
  match v.components with
  | [] => []
  | c :: cs => renderComponent c ++ sepRender cs

/-- A `Version` rendered as a string (`ToString` via `Display`). -/
def version_to_string (v : Version) : String :=
  ⟨renderVersion v⟩

/-! ## Order-theoretic facts about the comparisons -/

theorem natCmp_refl (a : Nat) : natCmp a a = .eq := by
  unfold natCmp
  simp

theorem natCmp_eq_iff {a b : Nat} : natCmp a b = .eq ↔ a = b := by
  unfold natCmp
  split
  · constructor
    · intro h; exact absurd h (by simp)
    · omega
  · split
    · simp_all
    · constructor
      · intro h; exact absurd h (by simp)
      · omega

theorem natCmp_swap (a b : Nat) : natCmp b a = (natCmp a b).swap := by
  unfold natCmp
  split
  · rw [if_neg (by omega), if_neg (by omega)]
    rfl
  · split
    · rw [if_neg (by omega), if_pos (by omega)]
      rfl
    · rw [if_pos (by omega)]
      rfl

theorem char_toNat_inj {a b : Char} (h : a.toNat = b.toNat) : a = b := by
  have := congrArg Char.ofNat h
  rwa [Char.ofNat_toNat, Char.ofNat_toNat] at this

theorem cmpChars_refl (s : List Char) : cmpChars s s = .eq := by
  induction s with
  | nil => rfl
  | cons a as ih => simp [cmpChars, natCmp_refl, ih]

theorem cmpChars_eq_iff {a b : List Char} : cmpChars a b = .eq ↔ a = b := by
  induction a generalizing b with
  | nil =>
    cases b with
    | nil => simp [cmpChars]
    | cons y ys => simp [cmpChars]
  | cons x xs ih =>
    cases b with
    | nil => simp [cmpChars]
    | cons y ys =>
      simp only [cmpChars]
      cases hc : natCmp x.toNat y.toNat with
      | eq =>
        have hxy : x = y := char_toNat_inj (natCmp_eq_iff.mp hc)
        subst hxy
        simp [ih]
      | lt =>
        have hxy : x ≠ y := by
          intro he
          subst he
          rw [natCmp_refl] at hc
          cases hc
        simp [hc, hxy]
      | gt =>
        have hxy : x ≠ y := by
          intro he
          subst he
          rw [natCmp_refl] at hc
          cases hc
        simp [hc, hxy]

theorem cmpChars_swap (a b : List Char) : cmpChars b a = (cmpChars a b).swap := by
  induction a generalizing b with
  | nil =>
    cases b with
    | nil => rfl
    | cons y ys => rfl
  | cons x xs ih =>
    cases b with
    | nil => rfl
    | cons y ys =>
      simp only [cmpChars, natCmp_swap x.toNat y.toNat]
      cases natCmp x.toNat y.toNat with
      | eq => exact ih ys
      | lt => rfl
      | gt => rfl

theorem componentCmp_refl (c : Component) : componentCmp c c = .eq := by
  cases c with
  | Identifier s => simp [componentCmp, cmpChars_refl]
  | Number n => simp [componentCmp, natCmp_refl]

theorem componentCmp_eq_iff {a b : Component} : componentCmp a b = .eq ↔ a = b := by
  cases a <;> cases b <;> simp [componentCmp, cmpChars_eq_iff, natCmp_eq_iff]

theorem componentCmp_swap (a b : Component) : componentCmp b a = (componentCmp a b).swap := by
  cases a <;> cases b <;> simp only [componentCmp] <;>
    first
      | rfl
      | exact cmpChars_swap _ _
      | exact natCmp_swap _ _

theorem eqComponents_refl (l : List Component) : eqComponents l l = true := by
  induction l with
  | nil => simp [eqComponents]
  | cons c r ih => simp [eqComponents, ih]

theorem cmpComponents_refl (l : List Component) : cmpComponents l l = .eq := by
  induction l with
  | nil => simp [cmpComponents]
  | cons c r ih => simp [cmpComponents, componentCmp_refl, ih]

/-- The dual-cursor comparison is antisymmetric: swapping the arguments swaps
the outcome. -/
theorem cmpComponents_swap (a b : List Component) :
    cmpComponents b a = (cmpComponents a b).swap := by
  induction a, b using cmpComponents.induct with
  | case1 => simp [cmpComponents, Ordering.swap]
  | case2 rest ih => simpa [cmpComponents] using ih
  | case3 rest ih => simpa [cmpComponents] using ih
  | case4 n tail hn =>
    cases n with
    | zero => exact absurd rfl hn
    | succ m => simp [cmpComponents, Ordering.swap]
  | case5 n tail hn =>
    cases n with
    | zero => exact absurd rfl hn
    | succ m => simp [cmpComponents, Ordering.swap]
  | case6 s tail => simp [cmpComponents, Ordering.swap]
  | case7 s tail => simp [cmpComponents, Ordering.swap]
  | case8 c1 r1 c2 r2 hc ih =>
    have hc' : componentCmp c2 c1 = .eq := by
      rw [componentCmp_swap, hc]
      rfl
    simp [cmpComponents, hc, hc', ih]
  | case9 c1 r1 c2 r2 hc =>
    have hswap := componentCmp_swap c1 c2
    simp only [cmpComponents, hswap]
    cases h : componentCmp c1 c2 with
    | eq => exact absurd h hc
    | lt => rfl
    | gt => rfl

/-- The dual-cursor equality walk agrees with the comparison walk returning
`eq`. -/
theorem eqComponents_iff_cmp_eq (a b : List Component) :
    eqComponents a b = true ↔ cmpComponents a b = .eq := by
  induction a, b using cmpComponents.induct with
  | case1 => simp [cmpComponents, eqComponents]
  | case2 rest ih => simpa [cmpComponents, eqComponents] using ih
  | case3 rest ih => simpa [cmpComponents, eqComponents] using ih
  | case4 n tail hn =>
    cases n with
    | zero => exact absurd rfl hn
    | succ m => simp [cmpComponents, eqComponents]
  | case5 n tail hn =>
    cases n with
    | zero => exact absurd rfl hn
    | succ m => simp [cmpComponents, eqComponents]
  | case6 s tail => simp [cmpComponents, eqComponents]
  | case7 s tail => simp [cmpComponents, eqComponents]
  | case8 c1 r1 c2 r2 hc ih =>
    have he : c1 = c2 := componentCmp_eq_iff.mp hc
    subst he
    simp [cmpComponents, eqComponents, hc, ih]
  | case9 c1 r1 c2 r2 hc =>
    have hne : c1 ≠ c2 := fun he => hc (he ▸ componentCmp_refl c1)
    simp only [cmpComponents, eqComponents]
    cases h : componentCmp c1 c2 with
    | eq => exact absurd h hc
    | lt => simp [hne]
    | gt => simp [hne]

/-! ## Claim theorems -/

/-- C1: in the `Version::cmp` dual-cursor walk, at any reached position
(i.e. for any pair of remaining suffixes), an exhausted side against a
nonzero `Number` compares less, an exhausted side against an `Identifier`
compares greater, and an exhausted side against `Number 0` skips the
position and continues. -/
theorem claim_C1_exhausted_side (n : Nat) (s : List Char) (rest : List Component)
    (hn : n ≠ 0) :
    cmpComponents [] (.Number n :: rest) = .lt ∧
    cmpComponents (.Number n :: rest) [] = .gt ∧
    cmpComponents [] (.Identifier s :: rest) = .gt ∧
    cmpComponents (.Identifier s :: rest) [] = .lt ∧
    cmpComponents [] (.Number 0 :: rest) = cmpComponents [] rest ∧
    cmpComponents (.Number 0 :: rest) [] = cmpComponents rest [] := by
  cases n with
  | zero => exact absurd rfl hn
  | succ m =>
    refine ⟨by simp [cmpComponents], by simp [cmpComponents], by simp [cmpComponents],
      by simp [cmpComponents], by simp [cmpComponents], by simp [cmpComponents]⟩

/-- C1 witness: the exhausted-side rules at a concrete position. -/
theorem claim_C1_exhausted_side_witness :
    cmpComponents [] [.Number 2, .Number 5] = .lt ∧
    cmpComponents [.Number 2, .Number 5] [] = .gt ∧
    cmpComponents [] [.Identifier ['r', 'c'], .Number 5] = .gt ∧
    cmpComponents [.Identifier ['r', 'c'], .Number 5] [] = .lt ∧
    cmpComponents [] [.Number 0, .Number 5] = cmpComponents [] [.Number 5] ∧
    cmpComponents [.Number 0, .Number 5] [] = cmpComponents [.Number 5] [] := by
  have h := claim_C1_exhausted_side 2 ['r', 'c'] [.Number 5] (by decide)
  exact h

/-- C3 counterexample: the claim says a present `Number` compares less than a
present `Identifier` at the same position; the code compares the derived
`Component` order, where `Identifier` is the smaller variant, so the version
with the `Number` orders *greater*. -/
theorem claim_C3_counterexample :
    versionCmp ⟨[.Number 1]⟩ ⟨[.Identifier ['a']]⟩ = .gt ∧
    ¬ versionCmp ⟨[.Number 1]⟩ ⟨[.Identifier ['a']]⟩ = .lt := by
  constructor
  · simp [versionCmp, cmpComponents, componentCmp]
  · simp [versionCmp, cmpComponents, componentCmp]

/-- C3 amended: when both cursors hold a component and one is a `Number`
while the other is an `Identifier`, the `Identifier` side compares less (the
version with the `Number` at that position orders after the one with the
`Identifier`), for every such position of the walk. -/
theorem claim_C3_number_vs_identifier (n : Nat) (s : List Char)
    (r1 r2 : List Component) :
    cmpComponents (.Number n :: r1) (.Identifier s :: r2) = .gt ∧
    cmpComponents (.Identifier s :: r1) (.Number n :: r2) = .lt := by
  constructor <;> simp [cmpComponents, componentCmp]

/-- C4: `Version` ordering is a total order consistent with `Version`
equality: reflexivity of both, equality holds exactly when the comparison
returns `eq`, `a < b` iff `b > a`, and exactly one of the three outcomes
holds for every pair. -/
theorem claim_C4_total_order (a b : Version) :
    (versionEq a a = true ∧ versionCmp a a = .eq) ∧
    (versionEq a b = true ↔ versionCmp a b = .eq) ∧
    (versionCmp a b = .lt ↔ versionCmp b a = .gt) ∧
    (versionCmp a b = .lt ∨ versionEq a b = true ∨ versionCmp a b = .gt) ∧
    (versionCmp a b = .lt → ¬ versionEq a b = true ∧ ¬ versionCmp a b = .gt) ∧
    (versionEq a b = true → ¬ versionCmp a b = .lt ∧ ¬ versionCmp a b = .gt) ∧
    (versionCmp a b = .gt → ¬ versionCmp a b = .lt ∧ ¬ versionEq a b = true) := by
  obtain ⟨la⟩ := a
  obtain ⟨lb⟩ := b
  simp only [versionEq, versionCmp]
  refine ⟨⟨eqComponents_refl la, cmpComponents_refl la⟩, eqComponents_iff_cmp_eq la lb, ?_, ?_⟩
  · rw [cmpComponents_swap la lb]
    cases cmpComponents la lb <;> simp [Ordering.swap]
  · rw [eqComponents_iff_cmp_eq la lb]
    cases cmpComponents la lb <;> simp

/-- C2: equality treats missing trailing components as `Number 0`: the parses
of `"1.2"`, `"1.2.0"` and `"1.2.0.0.0.0"` are mutually equal `Version`s,
while the parses of `"1.2.0.0.0.1"` and `"1.2.0.0.0.a"` are not equal to the
parse of `"1.2"`. -/
theorem claim_C2_trailing_zero_equality :
    version_from_str "1.2" = .ok ⟨[.Number 1, .Number 2]⟩ ∧
    version_from_str "1.2.0" = .ok ⟨[.Number 1, .Number 2, .Number 0]⟩ ∧
    version_from_str "1.2.0.0.0.0" =
      .ok ⟨[.Number 1, .Number 2, .Number 0, .Number 0, .Number 0, .Number 0]⟩ ∧
    version_from_str "1.2.0.0.0.1" =
      .ok ⟨[.Number 1, .Number 2, .Number 0, .Number 0, .Number 0, .Number 1]⟩ ∧
    version_from_str "1.2.0.0.0.a" =
      .ok ⟨[.Number 1, .Number 2, .Number 0, .Number 0, .Number 0, .Identifier ['a']]⟩ ∧
    versionEq ⟨[.Number 1, .Number 2]⟩ ⟨[.Number 1, .Number 2, .Number 0]⟩ = true ∧
    versionEq ⟨[.Number 1, .Number 2, .Number 0]⟩ ⟨[.Number 1, .Number 2]⟩ = true ∧
    versionEq ⟨[.Number 1, .Number 2]⟩
      ⟨[.Number 1, .Number 2, .Number 0, .Number 0, .Number 0, .Number 0]⟩ = true ∧
    versionEq ⟨[.Number 1, .Number 2, .Number 0]⟩
      ⟨[.Number 1, .Number 2, .Number 0, .Number 0, .Number 0, .Number 0]⟩ = true ∧
    versionEq ⟨[.Number 1, .Number 2, .Number 0, .Number 0, .Number 0, .Number 1]⟩
      ⟨[.Number 1, .Number 2]⟩ = false ∧
    versionEq ⟨[.Number 1, .Number 2]⟩
      ⟨[.Number 1, .Number 2, .Number 0, .Number 0, .Number 0, .Number 1]⟩ = false ∧
    versionEq ⟨[.Number 1, .Number 2, .Number 0, .Number 0, .Number 0, .Identifier ['a']]⟩
      ⟨[.Number 1, .Number 2]⟩ = false ∧
    versionEq ⟨[.Number 1, .Number 2]⟩
      ⟨[.Number 1, .Number 2, .Number 0, .Number 0, .Number 0, .Identifier ['a']]⟩ = false := by
  refine ⟨?_, ?_, ?_, ?_, ?_, ?_, ?_, ?_, ?_, ?_, ?_, ?_, ?_⟩ <;>
    simp [version_from_str, collect, pNext, parseComponentAt, parseNumber, parseIdentifier,
      splitLeading, digitsToNat, stripSep, stripParen, isSep, u64Max, Except.map,
      versionEq, eqComponents]

/-! ## Kernel-computable evaluation forms

The dual-cursor walks and the scanner driver above are defined by
well-founded recursion, which the kernel cannot unfold on closed terms.  The
following structurally recursive forms are proved equal to them and are used
to evaluate concrete instances by `decide`. -/

deriving instance DecidableEq for Except

/-- Outcome of the comparison walk once the left cursor is exhausted. -/
def cmpNilLeft : List Component → Ordering
  | [] => .eq
  | .Number 0 :: rest => cmpNilLeft rest
  | .Number _ :: _ => .lt
  | .Identifier _ :: _ => .gt

/-- Outcome of the comparison walk once the right cursor is exhausted. -/
def cmpNilRight : List Component → Ordering
  | [] => .eq
  | .Number 0 :: rest => cmpNilRight rest
  | .Number _ :: _ => .gt
  | .Identifier _ :: _ => .lt

/-- Structural form of `cmpComponents`. -/
def cmpComponentsF : List Component → List Component → Ordering
  | [], l => cmpNilLeft l
  | l, [] => cmpNilRight l
  | c1 :: r1, c2 :: r2 =>
    match componentCmp c1 c2 with
    | .eq => cmpComponentsF r1 r2
    | o => o

/-- Outcome of the equality walk once either cursor is exhausted: the other
side must consist of phantom trailing zeros. -/
def eqNil : List Component → Bool
  | [] => true
  | .Number 0 :: rest => eqNil rest
  | _ => false

/-- Structural form of `eqComponents`. -/
def eqComponentsF : List Component → List Component → Bool
  | [], l => eqNil l
  | l, [] => eqNil l
  | c1 :: r1, c2 :: r2 => if c1 = c2 then eqComponentsF r1 r2 else false

theorem cmpComponentsF_nil_right (l : List Component) :
    cmpComponentsF l [] = cmpNilRight l := by
  cases l with
  | nil => rfl
  | cons c r => rfl

theorem eqComponentsF_nil_right (l : List Component) :
    eqComponentsF l [] = eqNil l := by
  cases l with
  | nil => rfl
  | cons c r => rfl

/-- The comparison walk agrees with its structural form. -/
theorem cmpComponents_eq_F (a b : List Component) :
    cmpComponents a b = cmpComponentsF a b := by
  induction a, b using cmpComponents.induct with
  | case1 => simp [cmpComponents, cmpComponentsF, cmpNilLeft]
  | case2 rest ih =>
    rw [show cmpComponents [] (.Number 0 :: rest) = cmpComponents [] rest by
      simp [cmpComponents]]
    rw [ih]
    simp [cmpComponentsF, cmpNilLeft]
  | case3 rest ih =>
    rw [show cmpComponents (.Number 0 :: rest) [] = cmpComponents rest [] by
      simp [cmpComponents]]
    rw [ih, cmpComponentsF_nil_right, cmpComponentsF_nil_right]
    simp [cmpNilRight]
  | case4 n tail hn =>
    cases n with
    | zero => exact absurd rfl hn
    | succ m => simp [cmpComponents, cmpComponentsF, cmpNilLeft]
  | case5 n tail hn =>
    cases n with
    | zero => exact absurd rfl hn
    | succ m =>
      rw [cmpComponentsF_nil_right]
      simp [cmpComponents, cmpNilRight]
  | case6 s tail => simp [cmpComponents, cmpComponentsF, cmpNilLeft]
  | case7 s tail =>
    rw [cmpComponentsF_nil_right]
    simp [cmpComponents, cmpNilRight]
  | case8 c1 r1 c2 r2 hc ih => simp [cmpComponents, cmpComponentsF, hc, ih]
  | case9 c1 r1 c2 r2 hc =>
    simp only [cmpComponents, cmpComponentsF]

/-- The equality walk agrees with its structural form. -/
theorem eqComponents_eq_F (a b : List Component) :
    eqComponents a b = eqComponentsF a b := by
  induction a, b using cmpComponents.induct with
  | case1 => simp [eqComponents, eqComponentsF, eqNil]
  | case2 rest ih =>
    rw [show eqComponents [] (.Number 0 :: rest) = eqComponents [] rest by
      simp [eqComponents]]
    rw [ih]
    simp [eqComponentsF, eqNil]
  | case3 rest ih =>
    rw [show eqComponents (.Number 0 :: rest) [] = eqComponents rest [] by
      simp [eqComponents]]
    rw [ih, eqComponentsF_nil_right, eqComponentsF_nil_right]
    simp [eqNil]
  | case4 n tail hn =>
    cases n with
    | zero => exact absurd rfl hn
    | succ m => simp [eqComponents, eqComponentsF, eqNil]
  | case5 n tail hn =>
    cases n with
    | zero => exact absurd rfl hn
    | succ m =>
      rw [eqComponentsF_nil_right]
      simp [eqComponents, eqNil]
  | case6 s tail => simp [eqComponents, eqComponentsF, eqNil]
  | case7 s tail =>
    rw [eqComponentsF_nil_right]
    simp [eqComponents, eqNil]
  | case8 c1 r1 c2 r2 hc ih =>
    have he : c1 = c2 := componentCmp_eq_iff.mp hc
    subst he
    simp [eqComponents, eqComponentsF, ih]
  | case9 c1 r1 c2 r2 hc =>
    have hne : c1 ≠ c2 := fun he => hc (he ▸ componentCmp_refl c1)
    simp [eqComponents, eqComponentsF, hne]

/-- Fuel-indexed structural version of `collect`, used to evaluate the parser
inside the kernel on concrete inputs. -/
def collectFuel : Nat → Bool → List Char → Except (List Char) (List Component)
  | 0, _, _ => .error []
  | fuel + 1, first, input =>
    match pNext first input with
    | .done => .ok []
    | .fail e => .error e
    | .comp c rest => (collectFuel fuel false rest).map (fun cs => c :: cs)

theorem collectFuel_eq_collect :
    ∀ (fuel : Nat) (first : Bool) (input : List Char), input.length < fuel →
      collectFuel fuel first input = collect first input := by
  intro fuel
  induction fuel with
  | zero => intro f i h; omega
  | succ n ih =>
    intro f i h
    rw [collect]
    cases hp : pNext f i with
    | done => simp [collectFuel, hp]
    | fail e => simp [collectFuel, hp]
    | comp c rest =>
      have hlen := (pNext_comp_shape hp).1
      simp only [collectFuel, hp]
      rw [ih false rest (by omega)]

/-- Evaluation form of `collect`. -/
theorem collect_eval (first : Bool) (input : List Char) :
    collect first input = collectFuel (input.length + 1) first input :=
  (collectFuel_eq_collect (input.length + 1) first input (by omega)).symm

/-- Evaluation form of `versionEq`. -/
theorem versionEq_eval (a b : Version) :
    versionEq a b = eqComponentsF a.components b.components := by
  rw [versionEq, eqComponents_eq_F]

/-- Evaluation form of `versionCmp`. -/
theorem versionCmp_eval (a b : Version) :
    versionCmp a b = cmpComponentsF a.components b.components := by
  rw [versionCmp, cmpComponents_eq_F]

/-- C5: the versions parsed from `["0.9", "1.0.a.2", "1.0.b1", "1.0", "1",
"1.0.0.0", "1.0.1"]` are ascending as listed: each strictly below the next
except that `"1.0"`, `"1"` and `"1.0.0.0"` are mutually equal, so an
ascending sort reproduces the listed order up to `Version` equality. -/
theorem claim_C5_sorted_fixture :
    version_from_str "0.9" = .ok ⟨[.Number 0, .Number 9]⟩ ∧
    version_from_str "1.0.a.2" = .ok ⟨[.Number 1, .Number 0, .Identifier ['a'], .Number 2]⟩ ∧
    version_from_str "1.0.b1" = .ok ⟨[.Number 1, .Number 0, .Identifier ['b'], .Number 1]⟩ ∧
    version_from_str "1.0" = .ok ⟨[.Number 1, .Number 0]⟩ ∧
    version_from_str "1" = .ok ⟨[.Number 1]⟩ ∧
    version_from_str "1.0.0.0" = .ok ⟨[.Number 1, .Number 0, .Number 0, .Number 0]⟩ ∧
    version_from_str "1.0.1" = .ok ⟨[.Number 1, .Number 0, .Number 1]⟩ ∧
    versionCmp ⟨[.Number 0, .Number 9]⟩
      ⟨[.Number 1, .Number 0, .Identifier ['a'], .Number 2]⟩ = .lt ∧
    versionCmp ⟨[.Number 1, .Number 0, .Identifier ['a'], .Number 2]⟩
      ⟨[.Number 1, .Number 0, .Identifier ['b'], .Number 1]⟩ = .lt ∧
    versionCmp ⟨[.Number 1, .Number 0, .Identifier ['b'], .Number 1]⟩
      ⟨[.Number 1, .Number 0]⟩ = .lt ∧
    versionCmp ⟨[.Number 1, .Number 0]⟩ ⟨[.Number 1]⟩ = .eq ∧
    versionEq ⟨[.Number 1, .Number 0]⟩ ⟨[.Number 1]⟩ = true ∧
    versionCmp ⟨[.Number 1]⟩ ⟨[.Number 1, .Number 0, .Number 0, .Number 0]⟩ = .eq ∧
    versionEq ⟨[.Number 1]⟩ ⟨[.Number 1, .Number 0, .Number 0, .Number 0]⟩ = true ∧
    versionEq ⟨[.Number 1, .Number 0]⟩ ⟨[.Number 1, .Number 0, .Number 0, .Number 0]⟩ = true ∧
    versionCmp ⟨[.Number 1, .Number 0, .Number 0, .Number 0]⟩
      ⟨[.Number 1, .Number 0, .Number 1]⟩ = .lt := by
  simp only [version_from_str, collect_eval, versionCmp_eval, versionEq_eval]
  decide

/-! ## Character-class facts -/

theorem char_isDigit_iff {c : Char} : c.isDigit = true ↔ 48 ≤ c.toNat ∧ c.toNat ≤ 57 := by
  unfold Char.isDigit
  simp only [Bool.and_eq_true, decide_eq_true_eq, ge_iff_le, UInt32.le_def, BitVec.le_def]
  rfl

theorem char_isAlpha_iff {c : Char} :
    c.isAlpha = true ↔
      (65 ≤ c.toNat ∧ c.toNat ≤ 90) ∨ (97 ≤ c.toNat ∧ c.toNat ≤ 122) := by
  unfold Char.isAlpha Char.isUpper Char.isLower
  simp only [Bool.or_eq_true, Bool.and_eq_true, decide_eq_true_eq, ge_iff_le,
    UInt32.le_def, BitVec.le_def]
  rfl

/-- An ASCII alphabetic character is not an ASCII digit. -/
theorem isAlpha_not_isDigit {c : Char} (h : c.isAlpha = true) : c.isDigit = false := by
  rcases char_isAlpha_iff.mp h with ⟨h1, h2⟩ | ⟨h1, h2⟩ <;>
    · rw [← Bool.not_eq_true]
      intro hd
      obtain ⟨h3, h4⟩ := char_isDigit_iff.mp hd
      omega

/-- An ASCII digit is not an ASCII alphabetic character. -/
theorem isDigit_not_isAlpha {c : Char} (h : c.isDigit = true) : c.isAlpha = false := by
  obtain ⟨h1, h2⟩ := char_isDigit_iff.mp h
  rw [← Bool.not_eq_true]
  intro ha
  rcases char_isAlpha_iff.mp ha with ⟨h3, h4⟩ | ⟨h3, h4⟩ <;> omega

/-- No separator character is an ASCII digit. -/
theorem isSep_eq_false_of_isDigit {c : Char} (h : c.isDigit = true) : isSep c = false := by
  obtain ⟨h1, h2⟩ := char_isDigit_iff.mp h
  unfold isSep
  have hne : ∀ d : Char, d.toNat < 48 ∨ 57 < d.toNat → ¬ c = d := by
    intro d hd he
    subst he
    omega
  simp [hne '.' (by decide), hne '-' (by decide), hne '_' (by decide),
    hne '+' (by decide), hne ':' (by decide)]

/-- No separator character is an ASCII alphabetic character. -/
theorem isSep_eq_false_of_isAlpha {c : Char} (h : c.isAlpha = true) : isSep c = false := by
  have hval := char_isAlpha_iff.mp h
  unfold isSep
  have hne : ∀ d : Char, (d.toNat < 65 ∨ 90 < d.toNat) ∧ (d.toNat < 97 ∨ 122 < d.toNat) →
      ¬ c = d := by
    intro d hd he
    subst he
    rcases hval with ⟨h1, h2⟩ | ⟨h1, h2⟩ <;> omega
  simp [hne '.' (by decide), hne '-' (by decide), hne '_' (by decide),
    hne '+' (by decide), hne ':' (by decide)]

/-- The function `parseComponentAt` never reports the end of the sequence. -/
theorem parseComponentAt_ne_done (input : List Char) : parseComponentAt input ≠ .done := by
  unfold parseComponentAt
  split
  · simp
  · split
    · simp
    · simp

/-- On a non-empty input, the first scanner step never reports the end. -/
theorem pNext_true_ne_done {input : List Char} (h : input ≠ []) :
    pNext true input ≠ .done := by
  unfold pNext
  rw [if_neg (by simpa using h), if_pos rfl]
  exact parseComponentAt_ne_done input

/-- C6 counterexample: parsing the empty string succeeds with an empty
component list, contradicting "a successful parse never produces an empty
component list ... for any input". -/
theorem claim_C6_counterexample :
    version_from_str "" = .ok ⟨[]⟩ := by
  simp only [version_from_str, collect_eval]
  decide

/-- C6 amended: a successful parse of a *non-empty* input never produces an
empty component list (the empty string is the one input that parses to zero
components). -/
theorem claim_C6_nonempty (s : String) (v : Version) (hs : s ≠ "")
    (h : version_from_str s = .ok v) : v.components ≠ [] := by
  obtain ⟨l⟩ := s
  have hl : l ≠ [] := by
    intro he
    subst he
    exact hs rfl
  unfold version_from_str at h
  revert h
  split
  · rename_i cs hc
    intro h
    injection h with h
    subst h
    rw [collect] at hc
    revert hc
    split
    · rename_i hp
      exact absurd hp (pNext_true_ne_done hl)
    · intro hc
      exact absurd hc (by simp)
    · rename_i c rest hp
      intro hc
      cases hrec : collect false rest with
      | ok cs' =>
        rw [hrec] at hc
        simp only [Except.map] at hc
        injection hc with hc
        subst hc
        simp
      | error e =>
        rw [hrec] at hc
        exact absurd hc (by simp [Except.map])
  · intro h
    exact absurd h (by simp)

/-- C6 witness: the non-empty input `"1"` parses to a non-empty component
list. -/
theorem claim_C6_nonempty_witness :
    ("1" : String) ≠ "" ∧ version_from_str "1" = .ok ⟨[.Number 1]⟩ ∧
    (⟨[.Number 1]⟩ : Version).components ≠ [] :=
  ⟨by decide, by simp only [version_from_str, collect_eval]; decide,
   claim_C6_nonempty "1" ⟨[.Number 1]⟩ (by decide)
     (by simp only [version_from_str, collect_eval]; decide)⟩

/-- Dropping the non-`)` characters of `body ++ [')']` leaves exactly `[')']`
when `body` contains no `)`. -/
theorem dropWhile_paren_body {body : List Char} (hb : ')' ∉ body) :
    (body ++ [')']).dropWhile (fun ch => ch != ')') = [')'] := by
  induction body with
  | nil => decide
  | cons b bs ih =>
    have hbne : (b != ')') = true := by
      simp only [bne_iff_ne, ne_eq]
      intro he
      exact hb (he ▸ List.mem_cons_self b bs)
    have hb' : ')' ∉ bs := fun hm => hb (List.mem_cons_of_mem b hm)
    simp [List.dropWhile_cons, hbne, ih hb']

/-- C8: after at least one component, a remaining input `" ("` followed by
characters and exactly one final `)` is discarded and the parse of the
remainder ends successfully; consequently the four vendor-string examples
parse successfully. -/
theorem claim_C8_paren_suffix (body : List Char) (hb : ')' ∉ body) :
    collect false (' ' :: '(' :: (body ++ [')'])) = .ok [] ∧
    version_from_str "7.4.1 (4452929)" = .ok ⟨[.Number 7, .Number 4, .Number 1]⟩ ∧
    version_from_str "10.0.014 (Isengard_RC01.phone_dynamic)" =
      .ok ⟨[.Number 10, .Number 0, .Number 14]⟩ ∧
    version_from_str "3.10.6.0004_tacIssue_RIDCrush_Issue_211101_182805" =
      .ok ⟨[.Number 3, .Number 10, .Number 6, .Number 4,
        .Identifier ['t', 'a', 'c', 'I', 's', 's', 'u', 'e'],
        .Identifier ['R', 'I', 'D', 'C', 'r', 'u', 's', 'h'],
        .Identifier ['I', 's', 's', 'u', 'e'], .Number 211101, .Number 182805]⟩ ∧
    version_from_str "3.10.0+20251203173456" =
      .ok ⟨[.Number 3, .Number 10, .Number 0, .Number 20251203173456]⟩ := by
  refine ⟨?_, ?_, ?_, ?_, ?_⟩
  · have hdrop := dropWhile_paren_body hb
    have hp : pNext false (' ' :: '(' :: (body ++ [')'])) = .done := by
      simp [pNext, stripSep, stripParen, isSep, hdrop]
    rw [collect]
    split
    · rfl
    · rename_i e he
      rw [hp] at he
      cases he
    · rename_i c rest he
      rw [hp] at he
      cases he
  · simp only [version_from_str, collect_eval]
    decide
  · simp only [version_from_str, collect_eval]
    decide
  · simp only [version_from_str, collect_eval]
    decide
  · simp only [version_from_str, collect_eval]
    decide

/-- C8 witness: the paren-suffix rule at the concrete body `"4452929"`. -/
theorem claim_C8_paren_suffix_witness :
    ')' ∉ ['4', '4', '5', '2', '9', '2', '9'] ∧
    collect false (' ' :: '(' :: (['4', '4', '5', '2', '9', '2', '9'] ++ [')'])) = .ok [] :=
  ⟨by decide, (claim_C8_paren_suffix ['4', '4', '5', '2', '9', '2', '9'] (by decide)).1⟩

/-- Every parse failure of the scanner driver reports a suffix of the input
it was started on. -/
theorem collect_error_suffix :
    ∀ (first : Bool) (input : List Char) (e : List Char),
      collect first input = .error e → e.IsSuffix input := by
  intro first input
  induction first, input using collect.induct with
  | case1 f i hdone =>
    intro e h
    rw [collect] at h
    split at h
    · cases h
    · rename_i e' he'
      injection h with h
      subst h
      exact pNext_fail_suffix he'
    · rename_i c rest hcomp
      rw [hdone] at hcomp
      cases hcomp
  | case2 f i e0 hfail =>
    intro e h
    rw [collect] at h
    split at h
    · cases h
    · rename_i e' he'
      injection h with h
      subst h
      exact pNext_fail_suffix he'
    · rename_i c rest hcomp
      rw [hfail] at hcomp
      cases hcomp
  | case3 f i c rest hcomp ih =>
    intro e h
    rw [collect] at h
    split at h
    · cases h
    · rename_i e' he'
      injection h with h
      subst h
      exact pNext_fail_suffix he'
    · rename_i c' rest' hcomp'
      rw [hcomp] at hcomp'
      injection hcomp' with h1 h2
      subst h1
      subst h2
      cases hm : collect false rest with
      | ok cs =>
        rw [hm] at h
        exact absurd h (by simp [Except.map])
      | error e2 =>
        rw [hm] at h
        simp only [Except.map] at h
        injection h with h
        subst h
        exact (ih e2 hm).trans (pNext_comp_shape hcomp).2

/-- When the remaining input starts with a digit run whose value overflows
`u64`, the scanner fails there with exactly that remaining input. -/
theorem collect_overflow (first : Bool) (input : List Char)
    (hne : input.takeWhile Char.isDigit ≠ [])
    (hover : u64Max < digitsToNat (input.takeWhile Char.isDigit)) :
    collect first input = .error input := by
  obtain ⟨d, t, rfl⟩ : ∃ d t, input = d :: t := by
    cases input with
    | nil => simp at hne
    | cons d t => exact ⟨d, t, rfl⟩
  have hd : d.isDigit = true := by
    by_contra hd
    rw [List.takeWhile_cons, if_neg hd] at hne
    exact hne rfl
  have hnum : parseNumber (d :: t) = none := by
    unfold parseNumber splitLeading
    rw [if_neg hne]
    simp only [Option.some.injEq]
    rw [if_neg (by omega)]
  have hid : parseIdentifier (d :: t) = none := by
    unfold parseIdentifier splitLeading
    rw [if_pos ?halpha]
    case halpha =>
      rw [List.takeWhile_cons, if_neg (by simp [isDigit_not_isAlpha hd])]
  have hpc : parseComponentAt (d :: t) = .fail (d :: t) := by
    unfold parseComponentAt
    rw [hnum, hid]
  have hp : pNext first (d :: t) = .fail (d :: t) := by
    unfold pNext
    rw [if_neg (by simp)]
    cases first with
    | true =>
      rw [if_pos rfl]
      exact hpc
    | false =>
      rw [if_neg (by simp)]
      have hs : stripSep (d :: t) = none := by
        have hns : isSep d = false := isSep_eq_false_of_isDigit hd
        simp [stripSep, hns]
      rw [hs]
      have hd' : d ≠ ' ' := by
        intro he
        subst he
        exact absurd hd (by decide)
      have hsp : stripParen (d :: t) = none := by
        unfold stripParen
        split
        · rename_i heq
          injection heq with heq
          exact absurd heq hd'
        · rfl
      rw [hsp]
      exact hpc
  rw [collect]
  split
  · rename_i hdone
    rw [hp] at hdone
    cases hdone
  · rename_i e' he'
    rw [hp] at he'
    injection he' with he'
    rw [he']
  · rename_i c rest hcomp
    rw [hp] at hcomp
    cases hcomp

/-- C9 counterexample: an input whose (unique maximal) overflowing digit run
sits inside a discarded parenthesized suffix parses successfully, refuting
"any input whose maximal digit run overflows u64 fails to parse". -/
theorem claim_C9_counterexample :
    version_from_str "1 (18446744073709551616)" = .ok ⟨[.Number 1]⟩ ∧
    u64Max < digitsToNat "18446744073709551616".data := by
  constructor
  · simp only [version_from_str, collect_eval]
    decide
  · decide

/-- C9 amended: every parse failure carries exactly the unconsumed remainder
at the failure point, a suffix of the input; `"-"` and `"1.0 (abc"` fail with
exactly those remainders; and an overflowing digit run at the head of the
remaining input (hence one reached by the scanner, not one discarded inside a
parenthesized suffix) always fails, reporting that remaining input. -/
theorem claim_C9_error_remainder :
    (∀ (s : String) (e : ParseVersionError),
      version_from_str s = .error e → e.remaining.IsSuffix s.data) ∧
    version_from_str "-" = .error ⟨['-']⟩ ∧
    version_from_str "1.0 (abc" = .error ⟨[' ', '(', 'a', 'b', 'c']⟩ ∧
    (∀ (first : Bool) (input : List Char),
      input.takeWhile Char.isDigit ≠ [] →
      u64Max < digitsToNat (input.takeWhile Char.isDigit) →
      collect first input = .error input) ∧
    version_from_str "18446744073709551616" = .error ⟨"18446744073709551616".data⟩ := by
  refine ⟨?_, ?_, ?_, collect_overflow, ?_⟩
  · intro s e h
    unfold version_from_str at h
    revert h
    split
    · intro h
      exact absurd h (by simp)
    · rename_i e' he'
      intro h
      injection h with h
      subst h
      exact collect_error_suffix true s.data e' he'
  · simp only [version_from_str, collect_eval]
    decide
  · simp only [version_from_str, collect_eval]
    decide
  · simp only [version_from_str, collect_eval]
    decide

/-- C9 witness: the suffix property applied at `"-"`, and the overflow rule
applied at the digit run `2^64`. -/
theorem claim_C9_error_remainder_witness :
    version_from_str "-" = .error ⟨['-']⟩ ∧
    (ParseVersionError.mk ['-']).remaining.IsSuffix "-".data ∧
    "18446744073709551616".data.takeWhile Char.isDigit ≠ [] ∧
    u64Max < digitsToNat ("18446744073709551616".data.takeWhile Char.isDigit) ∧
    collect true "18446744073709551616".data = .error "18446744073709551616".data :=
  ⟨by simp only [version_from_str, collect_eval]; decide,
   claim_C9_error_remainder.1 "-" ⟨['-']⟩
     (by simp only [version_from_str, collect_eval]; decide),
   by decide, by decide,
   claim_C9_error_remainder.2.2.2.1 true "18446744073709551616".data
     (by decide) (by decide)⟩

/-- A list of phantom zeros passes the exhausted-side equality walk. -/
theorem eqNil_of_all_zero {l : List Component} (h : ∀ c ∈ l, c = .Number 0) :
    eqNil l = true := by
  induction l with
  | nil => rfl
  | cons c r ih =>
    have hc := h c (List.mem_cons_self c r)
    subst hc
    simpa [eqNil] using ih (fun c hm => h c (List.mem_cons_of_mem _ hm))

/-- C10: the empty string parses to the zero-component `Version`, which is
`Version`-equal to the default `"0.0.0"` and to every `Version` whose
components are all `Number 0`. -/
theorem claim_C10_empty_string (l : List Component) (h : ∀ c ∈ l, c = .Number 0) :
    version_from_str "" = .ok ⟨[]⟩ ∧
    versionEq ⟨[]⟩ defaultVersion = true ∧
    versionEq defaultVersion ⟨[]⟩ = true ∧
    versionEq ⟨[]⟩ ⟨l⟩ = true ∧
    versionEq ⟨l⟩ ⟨[]⟩ = true := by
  refine ⟨?_, ?_, ?_, ?_, ?_⟩
  · simp only [version_from_str, collect_eval]
    decide
  · rw [versionEq_eval]
    decide
  · rw [versionEq_eval]
    decide
  · rw [versionEq_eval]
    show eqComponentsF [] l = true
    have hnil : eqComponentsF [] l = eqNil l := by
      cases l with
      | nil => rfl
      | cons c r => rfl
    rw [hnil]
    exact eqNil_of_all_zero h
  · rw [versionEq_eval]
    show eqComponentsF l [] = true
    rw [eqComponentsF_nil_right]
    exact eqNil_of_all_zero h

/-- C10 witness: the all-zero rule at the concrete list `[0, 0]`. -/
theorem claim_C10_empty_string_witness :
    (∀ c ∈ [Component.Number 0, Component.Number 0], c = Component.Number 0) ∧
    versionEq ⟨[]⟩ ⟨[Component.Number 0, Component.Number 0]⟩ = true :=
  ⟨by decide,
   (claim_C10_empty_string [Component.Number 0, Component.Number 0] (by decide)).2.2.2.1⟩

/-! ## Round-trip machinery (claim C7) -/

/-- Well-formedness of every component the scanner can produce: a number fits
in `u64`; an identifier is non-empty and all-alphabetic. -/
def goodComponent : Component → Bool
  | .Number n => n ≤ u64Max
  | .Identifier s => !s.isEmpty && s.all Char.isAlpha

theorem parseNumber_some_good {input rest : List Char} {c : Component}
    (h : parseNumber input = some (c, rest)) : goodComponent c = true := by
  unfold parseNumber at h
  split at h
  · rename_i digits tail hs
    split at h
    · rename_i hle
      injection h with h
      injection h with h1 h2
      subst h1
      simpa [goodComponent] using hle
    · exact absurd h (by simp)
  · exact absurd h (by simp)

theorem parseIdentifier_some_good {input rest : List Char} {c : Component}
    (h : parseIdentifier input = some (c, rest)) : goodComponent c = true := by
  unfold parseIdentifier at h
  split at h
  · rename_i id tail hs
    injection h with h
    injection h with h1 h2
    obtain ⟨ha, hb, hne⟩ := splitLeading_eq_some hs
    subst h1
    subst ha
    simp only [goodComponent, Bool.and_eq_true, Bool.not_eq_true', List.all_eq_true]
    constructor
    · cases hc : input.takeWhile Char.isAlpha with
      | nil => exact absurd hc hne
      | cons x xs => rfl
    · intro x hx
      exact List.mem_takeWhile_imp hx
  · exact absurd h (by simp)

theorem parseComponentAt_comp_good {input rest : List Char} {c : Component}
    (h : parseComponentAt input = .comp c rest) : goodComponent c = true := by
  unfold parseComponentAt at h
  split at h
  · rename_i c' rest' hn
    injection h with h1 h2
    subst h1
    subst h2
    exact parseNumber_some_good hn
  · split at h
    · rename_i c' rest' hi
      injection h with h1 h2
      subst h1
      subst h2
      exact parseIdentifier_some_good hi
    · exact absurd h (by simp)

theorem pNext_comp_good {first : Bool} {input rest : List Char} {c : Component}
    (h : pNext first input = .comp c rest) : goodComponent c = true := by
  unfold pNext at h
  split at h
  · exact absurd h (by simp)
  · split at h
    · exact parseComponentAt_comp_good h
    · split at h
      · exact parseComponentAt_comp_good h
      · split at h
        · split at h
          · exact absurd h (by simp)
          · exact absurd h (by simp)
        · exact parseComponentAt_comp_good h

/-- Every component of a successful parse is well-formed. -/
theorem collect_ok_good :
    ∀ (first : Bool) (input : List Char) (l : List Component),
      collect first input = .ok l → ∀ c ∈ l, goodComponent c = true := by
  intro first input
  induction first, input using collect.induct with
  | case1 f i hdone =>
    intro l h c hc
    rw [collect] at h
    split at h
    · injection h with h
      subst h
      simp at hc
    · cases h
    · rename_i c' rest hcomp
      rw [hdone] at hcomp
      cases hcomp
  | case2 f i e0 hfail =>
    intro l h c hc
    rw [collect] at h
    split at h
    · injection h with h
      subst h
      simp at hc
    · cases h
    · rename_i c' rest hcomp
      rw [hfail] at hcomp
      cases hcomp
  | case3 f i c0 rest hcomp ih =>
    intro l h c hc
    rw [collect] at h
    split at h
    · injection h with h
      subst h
      simp at hc
    · cases h
    · rename_i c' rest' hcomp'
      rw [hcomp] at hcomp'
      injection hcomp' with h1 h2
      subst h1
      subst h2
      cases hm : collect false rest with
      | ok cs =>
        rw [hm] at h
        simp only [Except.map] at h
        injection h with h
        subst h
        rcases List.mem_cons.mp hc with hc | hc
        · subst hc
          exact pNext_comp_good hcomp
        · exact ih cs hm c hc
      | error e2 =>
        rw [hm] at h
        exact absurd h (by simp [Except.map])

theorem digit_char_spec {k : Nat} (hk : k < 10) :
    (Char.ofNat (48 + k)).isDigit = true ∧ (Char.ofNat (48 + k)).toNat = 48 + k := by
  interval_cases k <;> exact ⟨by decide, by decide⟩

theorem natDigits_ne_nil (n : Nat) : natDigits n ≠ [] := by
  rw [natDigits]
  split
  · simp
  · simp

theorem natDigits_all_digit : ∀ n, ∀ c ∈ natDigits n, c.isDigit = true := by
  intro n
  induction n using natDigits.induct with
  | case1 x hx =>
    rw [natDigits, if_pos hx]
    intro c hc
    rw [List.mem_singleton] at hc
    subst hc
    exact (digit_char_spec hx).1
  | case2 x hx ih =>
    rw [natDigits, if_neg hx]
    intro c hc
    rcases List.mem_append.mp hc with hc | hc
    · exact ih c hc
    · rw [List.mem_singleton] at hc
      subst hc
      exact (digit_char_spec (Nat.mod_lt x (by omega))).1

theorem digitsToNat_append_digit (l : List Char) (d : Char) :
    digitsToNat (l ++ [d]) = 10 * digitsToNat l + (d.toNat - 48) := by
  unfold digitsToNat
  rw [List.foldl_append]
  simp [Nat.mul_comm]

/-- Reading back the decimal rendering of `n` yields `n`. -/
theorem digitsToNat_natDigits : ∀ n, digitsToNat (natDigits n) = n := by
  intro n
  induction n using natDigits.induct with
  | case1 x hx =>
    rw [natDigits, if_pos hx]
    simp [digitsToNat, (digit_char_spec hx).2]
  | case2 x hx ih =>
    rw [natDigits, if_neg hx]
    rw [digitsToNat_append_digit, ih, (digit_char_spec (Nat.mod_lt x (by omega))).2]
    omega

/-- The function `splitLeading` recovers exactly a well-delimited run. -/
theorem splitLeading_exact {p : Char → Bool} {s r : List Char}
    (hs : s ≠ []) (hall : ∀ c ∈ s, p c = true)
    (hr : ∀ c ∈ r.head?, p c = false) :
    splitLeading p (s ++ r) = some (s, r) := by
  have htr : r.takeWhile p = [] := by
    cases r with
    | nil => rfl
    | cons x xs =>
      have hx : p x = false := hr x (by simp)
      simp [List.takeWhile_cons, hx]
  have hdr : r.dropWhile p = r := by
    cases r with
    | nil => rfl
    | cons x xs =>
      have hx : p x = false := hr x (by simp)
      simp [List.dropWhile_cons, hx]
  have ht : (s ++ r).takeWhile p = s := by
    rw [List.takeWhile_append_of_pos hall, htr, List.append_nil]
  have hd : (s ++ r).dropWhile p = r := by
    rw [List.dropWhile_append_of_pos hall, hdr]
  unfold splitLeading
  rw [ht, hd, if_neg hs]

theorem renderComponent_ne_nil {c : Component} (hg : goodComponent c = true) :
    renderComponent c ≠ [] := by
  cases c with
  | Number n => exact natDigits_ne_nil n
  | Identifier s =>
    simp only [goodComponent, Bool.and_eq_true, Bool.not_eq_true'] at hg
    intro he
    rw [renderComponent] at he
    subst he
    exact absurd hg.1 (by decide)

theorem ne_nil_isEmpty_false {l : List Char} (h : l ≠ []) : l.isEmpty = false := by
  cases l with
  | nil => exact absurd rfl h
  | cons x xs => rfl

/-- Parsing a well-formed component's rendering followed by a non-run
character recovers exactly that component. -/
theorem parseComponentAt_render {c : Component} {rest : List Char}
    (hg : goodComponent c = true)
    (hr : ∀ ch ∈ rest.head?, ch.isDigit = false ∧ ch.isAlpha = false) :
    parseComponentAt (renderComponent c ++ rest) = .comp c rest := by
  cases c with
  | Number n =>
    have hle : n ≤ u64Max := by simpa [goodComponent] using hg
    have hnum : parseNumber (natDigits n ++ rest) = some (.Number n, rest) := by
      unfold parseNumber
      rw [splitLeading_exact (natDigits_ne_nil n) (natDigits_all_digit n)
        (fun ch hch => (hr ch hch).1)]
      simp [digitsToNat_natDigits, hle]
    simp [parseComponentAt, renderComponent, hnum]
  | Identifier s =>
    simp only [goodComponent, Bool.and_eq_true, Bool.not_eq_true', List.all_eq_true] at hg
    obtain ⟨hne0, hall⟩ := hg
    have hsne : s ≠ [] := by
      intro he
      subst he
      exact absurd hne0 (by decide)
    have hnum : parseNumber (s ++ rest) = none := by
      obtain ⟨x, xs, rfl⟩ : ∃ x xs, s = x :: xs := by
        cases s with
        | nil => exact absurd rfl hsne
        | cons x xs => exact ⟨x, xs, rfl⟩
      have hx : x.isDigit = false := isAlpha_not_isDigit (hall x (by simp))
      have hcond : List.takeWhile Char.isDigit ((x :: xs) ++ rest) = [] := by
        rw [List.cons_append, List.takeWhile_cons]
        simp [hx]
      simp [parseNumber, splitLeading, hcond, hx]
    have hid : parseIdentifier (s ++ rest) = some (.Identifier s, rest) := by
      unfold parseIdentifier
      rw [splitLeading_exact hsne hall (fun ch hch => (hr ch hch).2)]
    simp [parseComponentAt, renderComponent, hnum, hid]

/-- The characters that can follow a rendered component (a dot or nothing)
are never part of a digit or identifier run. -/
theorem sepRender_head (cs : List Component) :
    ∀ ch ∈ (sepRender cs).head?, ch.isDigit = false ∧ ch.isAlpha = false := by
  cases cs with
  | nil =>
    intro ch hch
    simp [sepRender] at hch
  | cons c cs' =>
    intro ch hch
    simp [sepRender] at hch
    subst hch
    exact ⟨by decide, by decide⟩

/-- Draining the scanner over the dot-prefixed rendering of a well-formed
component list recovers exactly that list. -/
theorem collect_sepRender :
    ∀ cs : List Component, (∀ c ∈ cs, goodComponent c = true) →
      collect false (sepRender cs) = .ok cs := by
  intro cs
  induction cs with
  | nil =>
    intro _
    rw [collect_eval]
    rfl
  | cons c cs' ih =>
    intro h
    have hg : goodComponent c = true := h c (List.mem_cons_self c cs')
    have h' : ∀ x ∈ cs', goodComponent x = true :=
      fun x hx => h x (List.mem_cons_of_mem _ hx)
    have hpc := parseComponentAt_render hg (sepRender_head cs')
    have hp : pNext false (sepRender (c :: cs')) = .comp c (sepRender cs') := by
      show pNext false ('.' :: (renderComponent c ++ sepRender cs')) = _
      simp [pNext, stripSep, isSep, hpc]
    rw [show sepRender (c :: cs') = '.' :: (renderComponent c ++ sepRender cs') from rfl] at hp ⊢
    rw [collect]
    split
    · rename_i hdone
      rw [hp] at hdone
      cases hdone
    · rename_i e he
      rw [hp] at he
      cases he
    · rename_i c' rest' hcomp
      rw [hp] at hcomp
      injection hcomp with h1 h2
      subst h1
      subst h2
      rw [ih h']
      rfl

/-- Draining the scanner over the rendering of a well-formed component list
recovers exactly that list. -/
theorem collect_render :
    ∀ l : List Component, (∀ c ∈ l, goodComponent c = true) →
      collect true (renderVersion ⟨l⟩) = .ok l := by
  intro l hl
  cases l with
  | nil =>
    rw [collect_eval]
    rfl
  | cons c cs =>
    have hg : goodComponent c = true := hl c (List.mem_cons_self c cs)
    have h' : ∀ x ∈ cs, goodComponent x = true :=
      fun x hx => hl x (List.mem_cons_of_mem _ hx)
    have hne : renderComponent c ++ sepRender cs ≠ [] := by
      intro he
      exact renderComponent_ne_nil hg (List.append_eq_nil.mp he).1
    have hp : pNext true (renderComponent c ++ sepRender cs) = .comp c (sepRender cs) := by
      unfold pNext
      rw [if_neg (by simp [ne_nil_isEmpty_false hne]), if_pos rfl]
      exact parseComponentAt_render hg (sepRender_head cs)
    rw [show renderVersion ⟨c :: cs⟩ = renderComponent c ++ sepRender cs from rfl]
    rw [collect]
    split
    · rename_i hdone
      rw [hp] at hdone
      cases hdone
    · rename_i e he
      rw [hp] at he
      cases he
    · rename_i c' rest' hcomp
      rw [hp] at hcomp
      injection hcomp with h1 h2
      subst h1
      subst h2
      rw [collect_sepRender cs h']
      rfl

/-- C7: round-trip — for every `Version` obtained from a successful parse,
rendering it (components joined by `.`, numbers as decimal digits,
identifiers as their raw text) and parsing again succeeds and yields a
`Version` equal to the original (in fact the identical component list). -/
theorem claim_C7_round_trip (s : String) (v : Version)
    (h : version_from_str s = .ok v) :
    version_from_str (version_to_string v) = .ok v ∧ versionEq v v = true := by
  have hcomps : collect true s.data = .ok v.components := by
    unfold version_from_str at h
    revert h
    split
    · rename_i cs hc
      intro h
      injection h with h
      subst h
      exact hc
    · intro h
      exact absurd h (by simp)
  have hgood : ∀ c ∈ v.components, goodComponent c = true :=
    collect_ok_good true s.data v.components hcomps
  obtain ⟨l⟩ := v
  constructor
  · unfold version_from_str
    rw [show (version_to_string (⟨l⟩ : Version)).data = renderVersion ⟨l⟩ from rfl]
    rw [collect_render l hgood]
  · exact eqComponents_refl l

/-- C7 witness: the round trip at the concrete parse of `"1.2"`. -/
theorem claim_C7_round_trip_witness :
    version_from_str "1.2" = .ok ⟨[.Number 1, .Number 2]⟩ ∧
    version_from_str (version_to_string ⟨[.Number 1, .Number 2]⟩) =
      .ok ⟨[.Number 1, .Number 2]⟩ ∧
    versionEq ⟨[.Number 1, .Number 2]⟩ ⟨[.Number 1, .Number 2]⟩ = true := by
  have hparse : version_from_str "1.2" = .ok ⟨[.Number 1, .Number 2]⟩ := by
    simp only [version_from_str, collect_eval]
    decide
  have h := claim_C7_round_trip "1.2" ⟨[.Number 1, .Number 2]⟩ hparse
  exact ⟨hparse, h.1, h.2⟩
